import Mathlib

/-!
# Verification of the ML-Notebooks repository specification

Shallow embedding of the repository's notebook code, and proofs settling the
frozen claims about it.  The repository consists of five notebooks:

* `Neural_Network_from_Scratch.ipynb` — a two-layer network whose `sigmoid`,
  `sigmoidPrime`, `forward`, `backward` and `train` methods are hand-written
  tensor arithmetic (embedded below as `sigmoid`, `sigmoidPrime`, `nnForward`,
  `nnBackward`, `nnTrain` over Mathlib matrices; `torch.matmul` is matrix
  multiplication, `torch.t` is transpose, `*` on tensors is the elementwise
  (Hadamard) product).
* `bow.ipynb` and `Continuous Bag of words.ipynb` (plus a Deep CBOW variant) —
  text classifiers with a `read_data`/`create_dict`/`create_tensor` pipeline
  and embedding-summing `forward` functions.
* `PyTorch_Hello_World.ipynb` — a one-layer model trained 150 iterations.
* `counterfactual_explanations.ipynb` — a random-forest black box plus the
  external CoGS genetic search; the notebook's own code is the success/failure
  branch around `cogs.elite`.

Machine floats of the notebooks are embedded as exact `ℚ`/`ℝ` arithmetic;
claims proved here are about that exact semantics of the source expressions.
-/

namespace MLNotebooks

/-! ## Neural_Network_from_Scratch: the model class

Source (`Neural_Network` class): `self.W1 : inputSize × hiddenSize = 2 × 3`,
`self.W2 : hiddenSize × outputSize = 3 × 1`.  The batch dimension `n` is the
number of rows of `X` (3 in the notebook). -/

/-- The two weight matrices held by the `Neural_Network` instance
(`self.W1`, `self.W2`). -/
structure NNWeights (R : Type) where
  W1 : Matrix (Fin 2) (Fin 3) R
  W2 : Matrix (Fin 3) (Fin 1) R

/-- `def sigmoid(self, s): return 1 / (1 + torch.exp(-s))`, elementwise;
scalar version over exact reals. -/
noncomputable def sigmoid (s : ℝ) : ℝ := 1 / (1 + Real.exp (-s))

/-- `def sigmoidPrime(self, s): return s * (1 - s)`, elementwise; scalar
version.  Pure ring arithmetic, so stated over any commutative ring. -/
def sigmoidPrime {R : Type} [CommRing R] (s : R) : R := s * (1 - s)

/-- `forward`: `z = matmul(X, W1); z2 = sigmoid(z); z3 = matmul(z2, W2);
o = sigmoid(z3)`.  Returns the stored activation `self.z2` together with the
output `o` (the attributes `backward` later reads). -/
noncomputable def nnForward {n : ℕ} (w : NNWeights ℝ) (X : Matrix (Fin n) (Fin 2) ℝ) :
    Matrix (Fin n) (Fin 3) ℝ × Matrix (Fin n) (Fin 1) ℝ :=
  let z := X * w.W1
  let z2 := z.map sigmoid
  let z3 := z2 * w.W2
  let o := z3.map sigmoid
  (z2, o)

/-- `backward(self, X, y, o)`:
`o_error = y - o`; `o_delta = o_error * sigmoidPrime(o)`;
`z2_error = matmul(o_delta, t(W2))`; `z2_delta = z2_error * sigmoidPrime(z2)`;
`W1 += matmul(t(X), z2_delta)`; `W2 += matmul(t(z2), o_delta)`.
`z2` is the attribute stored by `forward`.  All of it is ring arithmetic, so
stated over any commutative ring (`ℝ` for the notebook, `ℚ` for evaluation). -/
def nnBackward {R : Type} [CommRing R] {n : ℕ} (w : NNWeights R)
    (z2 : Matrix (Fin n) (Fin 3) R) (X : Matrix (Fin n) (Fin 2) R)
    (y o : Matrix (Fin n) (Fin 1) R) : NNWeights R :=
  let o_error := y - o
  let o_delta := Matrix.hadamard o_error (o.map sigmoidPrime)
  let z2_error := o_delta * w.W2.transpose
  let z2_delta := Matrix.hadamard z2_error (z2.map sigmoidPrime)
  ⟨w.W1 + X.transpose * z2_delta, w.W2 + z2.transpose * o_delta⟩

/-- `train(self, X, y)`: `o = self.forward(X); self.backward(X, y, o)`. -/
noncomputable def nnTrain {n : ℕ} (X : Matrix (Fin n) (Fin 2) ℝ)
    (y : Matrix (Fin n) (Fin 1) ℝ) (w : NNWeights ℝ) : NNWeights ℝ :=
  let fz := nnForward w X
  nnBackward w fz.1 X y fz.2

/-- The notebook's training loss `torch.mean((y - NN(X))**2)` up to the
constant factor `1/n`: the sum of squared output errors as a function of the
weights. -/
noncomputable def nnLoss {n : ℕ} (X : Matrix (Fin n) (Fin 2) ℝ)
    (y : Matrix (Fin n) (Fin 1) ℝ) (w : NNWeights ℝ) : ℝ :=
  ∑ i : Fin n, (y i 0 - (nnForward w X).2 i 0) ^ 2

/-- Replace the single entry `(k, 0)` of `W2` (a one-column matrix). -/
def updateW2 (W : Matrix (Fin 3) (Fin 1) ℝ) (k : Fin 3) (t : ℝ) :
    Matrix (Fin 3) (Fin 1) ℝ :=
  fun k' j => if k' = k then t else W k' j

/-- Replace the single entry `(k, l)` of `W1`. -/
def updateW1 (W : Matrix (Fin 2) (Fin 3) ℝ) (k : Fin 2) (l : Fin 3) (t : ℝ) :
    Matrix (Fin 2) (Fin 3) ℝ :=
  fun m j => if m = k ∧ j = l then t else W m j

/-! Concrete rational instances of a `backward` call (an attribute state the
class can reach: `z2` and `o` entries in `(0,1)`, as sigmoid outputs are),
used to evaluate the hand-written update steps on explicit inputs. -/

/-- Concrete weights: `W1 = 0`, `W2` all ones. -/
def nnCexW : NNWeights ℚ := ⟨0, Matrix.of ![![1], ![1], ![1]]⟩

/-- Concrete stored activation `self.z2`, all entries `1/2`. -/
def nnCexZ2 : Matrix (Fin 3) (Fin 3) ℚ :=
  Matrix.of ![![1/2, 1/2, 1/2], ![1/2, 1/2, 1/2], ![1/2, 1/2, 1/2]]

/-- Concrete training input `X`, all ones. -/
def nnCexX : Matrix (Fin 3) (Fin 2) ℚ := Matrix.of ![![1, 1], ![1, 1], ![1, 1]]

/-- Concrete target `y`, all ones. -/
def nnCexY : Matrix (Fin 3) (Fin 1) ℚ := Matrix.of ![![1], ![1], ![1]]

/-- Concrete network output `o`, all entries `1/2`. -/
def nnCexO : Matrix (Fin 3) (Fin 1) ℚ := Matrix.of ![![1/2], ![1/2], ![1/2]]

/-! ## BoW / CBoW forward passes

`bow.ipynb` (`BoW.forward`) and `Continuous Bag of words.ipynb`
(`CBoW.forward`).  An `nn.Embedding(nwords, k)` weight is a function
`Fin nwords → Fin k → ℚ`; a token sequence is a `List (Fin nwords)` of
in-range indices; float arithmetic is embedded as exact `ℚ`. -/

/-- `self.embedding(x)`: the list of embedding rows selected by the token
indices (`nn.Embedding` lookup). -/
def embeddingLookup {nwords k : ℕ} (E : Fin nwords → Fin k → ℚ)
    (x : List (Fin nwords)) : List (Fin k → ℚ) :=
  x.map E

/-- `torch.sum(emb, dim=0)`: fold the rows with pointwise addition
(a zero row for the empty sequence). -/
def sumDim0 {k : ℕ} (l : List (Fin k → ℚ)) : Fin k → ℚ :=
  l.foldl (fun acc v => acc + v) 0

/-- `out.view(1, -1)`: reshape a length-`k` vector to a `1 × k` matrix. -/
def view1 {k : ℕ} (v : Fin k → ℚ) : Matrix (Fin 1) (Fin k) ℚ := fun _ j => v j

/-- `BoW.forward`: `emb = self.embedding(x)`;
`out = torch.sum(emb, dim=0) + self.bias`; `out = out.view(1, -1)`. -/
def BoW.forward {nwords ntags : ℕ} (E : Fin nwords → Fin ntags → ℚ)
    (bias : Fin ntags → ℚ) (x : List (Fin nwords)) :
    Matrix (Fin 1) (Fin ntags) ℚ :=
  view1 (sumDim0 (embeddingLookup E x) + bias)

/-- `nn.Linear(emb_size, ntags)` with weight `A` and bias `b` applied to a
`1 × emb_size` input: `out = input Aᵀ + b`. -/
def linearLayer {emb ntags : ℕ} (A : Fin ntags → Fin emb → ℚ)
    (b : Fin ntags → ℚ) (m : Matrix (Fin 1) (Fin emb) ℚ) :
    Matrix (Fin 1) (Fin ntags) ℚ :=
  fun r t => (∑ j, m r j * A t j) + b t

/-- `CBoW.forward`: `emb = self.embedding(x)`;
`out = torch.sum(emb, dim=0)`; `out = out.view(1, -1)`;
`out = self.linear(out)`. -/
def CBoW.forward {nwords ntags emb : ℕ} (E : Fin nwords → Fin emb → ℚ)
    (A : Fin ntags → Fin emb → ℚ) (b : Fin ntags → ℚ) (x : List (Fin nwords)) :
    Matrix (Fin 1) (Fin ntags) ℚ :=
  linearLayer A b (view1 (sumDim0 (embeddingLookup E x)))

/-- The claim's description of `BoW.forward`: the elementwise sum over the
tokens of their embedding rows, plus the bias vector, reshaped `(1, ntags)`. -/
def BoW.summedScores {nwords ntags : ℕ} (E : Fin nwords → Fin ntags → ℚ)
    (bias : Fin ntags → ℚ) (x : List (Fin nwords)) :
    Matrix (Fin 1) (Fin ntags) ℚ :=
  fun _ t => (x.map (fun w => E w t)).sum + bias t

/-- The claim's description of `CBoW.forward`: the linear layer applied to
the sum over the tokens of their embedding rows, reshaped `(1, emb_size)`. -/
def CBoW.summedScores {nwords ntags emb : ℕ} (E : Fin nwords → Fin emb → ℚ)
    (A : Fin ntags → Fin emb → ℚ) (b : Fin ntags → ℚ) (x : List (Fin nwords)) :
    Matrix (Fin 1) (Fin ntags) ℚ :=
  linearLayer A b (view1 (fun j => (x.map (fun w => E w j)).sum))

/-! ## The vocabulary pipeline of the BoW / CBOW / Deep CBOW notebooks

`read_data`, `create_dict`, `create_tensor`.  A Python dict with insertion
discipline "append only if the key is absent" is an association list with
unique keys; `len(word_to_index)` is its length. -/

/-- A `word_to_index` / `tag_to_index` dictionary. -/
abbrev Dict := List (String × ℕ)

/-- Python dict lookup `d[w]` (first binding; keys are unique because
insertions are guarded by membership). -/
def dictLookup : Dict → String → Option ℕ
  | [], _ => none
  | (k, v) :: rest, w => if k = w then some v else dictLookup rest w

/-- Python membership test `w in d`. -/
def dictHasKey (d : Dict) (w : String) : Bool := (dictLookup d w).isSome

/-- Guarded insertion `if w not in d: d[w] = vf d` with the new value
computed from the current dictionary — the shape shared by all three
insertion sites of `create_dict`. -/
def addEntry (vf : Dict → ℕ) (d : Dict) (w : String) : Dict :=
  if dictHasKey d w then d else d ++ [(w, vf d)]

/-- `if word not in word_to_index: word_to_index[word] = len(word_to_index)`
(the `check_unk == False` branch of `create_dict`). -/
def addWordTrain (d : Dict) (w : String) : Dict := addEntry (fun d => d.length) d w

/-- `if word not in word_to_index:
word_to_index[word] = word_to_index["<unk>"]` (the `check_unk == True`
branch).  The `"<unk>"` access is modelled with `getD 0`; `"<unk>"` is in
every dictionary these notebooks build, with value `0`. -/
def addWordTest (d : Dict) (w : String) : Dict :=
  addEntry (fun d => (dictLookup d "<unk>").getD 0) d w

/-- `if line[0] not in tag_to_index:
tag_to_index[line[0]] = len(tag_to_index)`. -/
def addTag (d : Dict) (tag : String) : Dict := addEntry (fun d => d.length) d tag

/-- Python `line[1].split(" ")` at character level: break at every single
space, keeping empty fields, `acc` holding the current field reversed
(Python `str.split` with an explicit separator). -/
def splitWordsGo : List Char → List Char → List (List Char)
  | [], acc => [acc.reverse]
  | ' ' :: rest, acc => acc.reverse :: splitWordsGo rest []
  | c :: rest, acc => splitWordsGo rest (c :: acc)

/-- Python `line[1].split(" ")`. -/
def splitWords (s : String) : List String :=
  (splitWordsGo s.toList []).map (fun cs => String.mk cs)

/-- One line of `create_dict`: insert every word of `line[1].split(" ")`
into `word_to_index`, then `line[0]` into `tag_to_index`.  A line is the
pair `(line[0], line[1])`. -/
def create_dict_line (check_unk : Bool) (st : Dict × Dict)
    (line : String × String) : Dict × Dict :=
  ((splitWords line.2).foldl
      (fun d w => if check_unk then addWordTest d w else addWordTrain d w) st.1,
    addTag st.2 line.1)

/-- `create_dict(data, check_unk)`: fold `create_dict_line` over the data,
mutating the global `(word_to_index, tag_to_index)` state. -/
def create_dict (check_unk : Bool) (st : Dict × Dict)
    (data : List (String × String)) : Dict × Dict :=
  data.foldl (create_dict_line check_unk) st

/-- The initial `word_to_index`: `{"<unk>": 0}`
(`word_to_index["<unk>"] = len(word_to_index)` on the empty dict). -/
def initWordDict : Dict := [("<unk>", 0)]

/-- The notebook state after `create_dict(train_data)` (starting from
`word_to_index = {"<unk>": 0}` and `tag_to_index = {}`). -/
def pipelineTrainState (trainData : List (String × String)) : Dict × Dict :=
  create_dict false (initWordDict, []) trainData

/-- The notebook state after the subsequent
`create_dict(test_data, check_unk=True)`. -/
def pipelineTestState (trainData testData : List (String × String)) :
    Dict × Dict :=
  create_dict true (pipelineTrainState trainData) testData

/-- Invariant: the stored values are exactly `0, 1, …` in insertion order
(what the training pass maintains). -/
def RangeVals (d : Dict) : Prop := d.map Prod.snd = List.range d.length

/-- Invariant: every stored index is below the dictionary size. -/
def BoundedVals (d : Dict) : Prop := ∀ p ∈ d, p.2 < d.length

/-- Invariant: `"<unk>"` maps to index 0. -/
def UnkZero (d : Dict) : Prop := dictLookup d "<unk>" = some 0

/-- The word-dictionary component of `create_dict(data)` (training pass):
all the words of all the lines folded through `addWordTrain`. -/
def trainWordsFold (d : Dict) (data : List (String × String)) : Dict :=
  data.foldl (fun d line => (splitWords line.2).foldl addWordTrain d) d

/-- The word-dictionary component of `create_dict(data, check_unk=True)`. -/
def testWordsFold (d : Dict) (data : List (String × String)) : Dict :=
  data.foldl (fun d line => (splitWords line.2).foldl addWordTest d) d

/-- The tag-dictionary component of either `create_dict` pass. -/
def tagsFold (t : Dict) (data : List (String × String)) : Dict :=
  data.foldl (fun t line => addTag t line.1) t

/-- `[word_to_index[word] for word in words]` with the dict access made
explicit: a missing key (Python `KeyError`) is `none`. -/
def encodeWords (wd : Dict) : List String → Option (List ℕ)
  | [] => some []
  | w :: ws =>
    match dictLookup wd w, encodeWords wd ws with
    | some i, some rest => some (i :: rest)
    | _, _ => none

/-- `create_tensor(data)`: for each line yield
`([word_to_index[word] for word in line[1].split(" ")],
tag_to_index[line[0]])`; `none` models the uncaught `KeyError`. -/
def create_tensor (wd td : Dict) : List (String × String) → Option (List (List ℕ × ℕ))
  | [] => some []
  | line :: rest =>
    match encodeWords wd (splitWords line.2), dictLookup td line.1,
        create_tensor wd td rest with
    | some ws, some t, some out => some ((ws, t) :: out)
    | _, _, _ => none

/-! ## `read_data`: line processing at character level

`line = line.lower().strip(); line = line.split(' ||| ')`.  Strings are
modelled as `List Char` so that the split and the occurrence test are
transparent recursions. -/

/-- Python `str.lower` (character map). -/
def pyLower (s : List Char) : List Char := s.map Char.toLower

/-- Python `str.strip`: drop whitespace at both ends. -/
def pyStrip (s : List Char) : List Char :=
  ((s.dropWhile Char.isWhitespace).reverse.dropWhile Char.isWhitespace).reverse

/-- Python `s.split(" ||| ")`: scan left to right, breaking at each
(non-overlapping, leftmost-first) occurrence of the five-character separator
`' '`, `'|'`, `'|'`, `'|'`, `' '`; `acc` holds the current field reversed. -/
def splitSepGo : List Char → List Char → List (List Char)
  | [], acc => [acc.reverse]
  | ' ' :: '|' :: '|' :: '|' :: ' ' :: rest, acc => acc.reverse :: splitSepGo rest []
  | c :: rest, acc => splitSepGo rest (c :: acc)

/-- Does `" ||| "` occur (as a contiguous run) in `s`? -/
def hasSep : List Char → Bool
  | [] => false
  | ' ' :: '|' :: '|' :: '|' :: ' ' :: _ => true
  | _ :: rest => hasSep rest

/-- One line of `read_data`: `line.lower().strip().split(' ||| ')`. -/
def read_line (raw : List Char) : List (List Char) :=
  splitSepGo (pyStrip (pyLower raw)) []

/-- `read_data`: apply the line processing to every line of the file. -/
def read_data (lines : List (List Char)) : List (List (List Char)) :=
  lines.map read_line

/-! ## The counterfactual-explanations notebook: final display cell -/

/-- A printed line of the counterfactual notebook's final cell. -/
inductive OutLine where
  | successHeader : OutLine
  | featureChange : String → ℚ → ℚ → OutLine
  | failureMsg : OutLine
  deriving DecidableEq

/-- The feature loop of the success branch:
`for i, feat in enumerate(feature_names): if cf_explanation[i] != 0:
print(" Feature '{}' should change from '{}' to '{}'…")`. -/
def explanationLines {d : ℕ} (featureNames : Fin d → String)
    (x cf_example cf_explanation : Fin d → ℚ) : List OutLine :=
  (List.finRange d).foldl
    (fun acc i =>
      if cf_explanation i ≠ 0 then
        acc ++ [OutLine.featureChange (featureNames i) (x i) (cf_example i)]
      else acc)
    []

/-- The notebook's final cell: `cf_example = cogs.elite`;
`cf_explanation = cogs.elite - x`; then
`if bbm.predict([cf_example])[0] == desired_class:` print the success header
and the changed features `else:` print only the failure message.
`predict` is the black-box model's predictor and `elite` the best point the
external genetic search returned — both arbitrary parameters, since the
repository treats them as black boxes. -/
def showExplanation {d : ℕ} (predict : (Fin d → ℚ) → ℤ) (desired : ℤ)
    (featureNames : Fin d → String) (x elite : Fin d → ℚ) : List OutLine :=
  let cf_example := elite
  let cf_explanation := fun i => elite i - x i
  if predict cf_example = desired then
    OutLine.successHeader :: explanationLines featureNames x cf_example cf_explanation
  else
    [OutLine.failureMsg]

/-- Total absolute perturbation of `z` relative to the user `x` — the size
of an input perturbation, for the claim's "no smaller perturbation". -/
def pertSize {d : ℕ} (z x : Fin d → ℚ) : ℚ := ∑ i, |z i - x i|

/-- The property the claim asserts of a printed explanation: the flip
succeeds and no smaller perturbation of `x` flips the classifier to the
desired class. -/
def printedExplanationIsMinimalCE {d : ℕ} (predict : (Fin d → ℚ) → ℤ)
    (desired : ℤ) (x elite : Fin d → ℚ) : Prop :=
  predict elite = desired ∧
    ∀ z, pertSize z x < pertSize elite x → predict z ≠ desired

/-- A concrete one-feature black-box classifier: class `1` iff the feature
is at least `2`.  Modelled from the spec: the black-box model is "a
predictive model whose internal decision logic is not directly inspectable",
and `cogs.elite` is only "the best-found counterfactual example" of a
heuristic search — any classifier/elite pair the success check accepts is a
reachable outcome. -/
def toyPredict : (Fin 1 → ℚ) → ℤ := fun v => if 2 ≤ v 0 then 1 else 0

/-- The unhappy user of the toy scenario. -/
def toyX : Fin 1 → ℚ := fun _ => 0

/-- An elite the success check accepts (class flips), of perturbation size 3. -/
def toyElite : Fin 1 → ℚ := fun _ => 3

/-- A strictly smaller perturbation that also flips the class. -/
def toyZ : Fin 1 → ℚ := fun _ => 2

/-! ## Training loops: fixed iteration counts -/

/-- `for _ in range(n): body`, acting on a state `S`. -/
def forRange {S : Type} (n : ℕ) (body : S → S) (init : S) : S :=
  (List.range n).foldl (fun s _ => body s) init

/-- The state after each iteration of `for _ in range(n): body` — one list
entry per executed iteration. -/
def forRangeTrace {S : Type} (n : ℕ) (body : S → S) (init : S) : List S :=
  ((List.range n).scanl (fun s _ => body s) init).drop 1

/-- The from-scratch notebook's loop:
`for i in range(1000): NN.train(X, y)`. -/
noncomputable def scratchTrainingLoop {n : ℕ} (X : Matrix (Fin n) (Fin 2) ℝ)
    (y : Matrix (Fin n) (Fin 1) ℝ) (w0 : NNWeights ℝ) : NNWeights ℝ :=
  forRange 1000 (nnTrain X y) w0

/-- `bow.ipynb`, `train_bow`: `for ITER in range(10): …` — the epoch body
(library training/evaluation calls) abstracted as a state transformer. -/
def bowTrainingLoop {S : Type} (epoch : S → S) (s0 : S) : S := forRange 10 epoch s0

/-- `Continuous Bag of words.ipynb`: `for epoch in range(10): …`. -/
def cbowTrainingLoop {S : Type} (epoch : S → S) (s0 : S) : S := forRange 10 epoch s0

/-- `PyTorch_Hello_World.ipynb`: `for ITER in range(150): …`. -/
def helloWorldTrainingLoop {S : Type} (body : S → S) (s0 : S) : S :=
  forRange 150 body s0

/-! ## Randomness: unseeded `random.shuffle` vs `np.random.seed(SEED)` -/

/-- One swap `x[i], x[j] = x[j], x[i]` on a list (identity when an index is
out of range; `random.shuffle` only produces in-range indices). -/
def listSwap {α : Type} (l : List α) (i j : ℕ) : List α :=
  match l.get? i, l.get? j with
  | some a, some b => (l.set i b).set j a
  | _, _ => l

/-- Modelled from the documented behavior of Python's `random.shuffle`
(Fisher–Yates): `for i in reversed(range(1, len(x))): j = randbelow(i+1);
swap x[i], x[j]`, with the random draws supplied by the ambient entropy
stream `draws`.  The BoW/CBOW notebooks never seed `random`, so the stream
is an arbitrary parameter of a run. -/
def fyShuffleGo {α : Type} (draws : ℕ → ℕ) : ℕ → List α → List α
  | 0, l => l
  | i + 1, l => fyShuffleGo draws i (listSwap l (i + 1) (draws (i + 1) % (i + 2)))

/-- `random.shuffle(x)` under entropy stream `draws`. -/
def fyShuffle {α : Type} (draws : ℕ → ℕ) (l : List α) : List α :=
  fyShuffleGo draws (l.length - 1) l

/-- `random.shuffle(train_data)` at the top of each `train_bow` epoch: the
order in which the epoch then feeds sentences to the optimizer. -/
def train_bow_shuffle {α : Type} (draws : ℕ → ℕ) (train_data : List α) : List α :=
  fyShuffle draws train_data

/-- Entropy stream of a first unseeded run: all zeros. -/
def drawsA : ℕ → ℕ := fun _ => 0

/-- Entropy stream of a second unseeded run: all ones. -/
def drawsB : ℕ → ℕ := fun _ => 1

/-- Modelled numpy PRNG stream: a fixed deterministic function of the seed
(the precise formula is irrelevant; only its functional dependence on the
seed matters). -/
def npStream (seed : ℕ) : ℕ → ℕ :=
  fun k => (1103515245 * (seed + k) + 12345) % 2147483648

/-- `np.random.seed(SEED)`: replaces the global numpy RNG state with the
stream determined by the seed, discarding the ambient state. -/
def npRandomSeed (seed : ℕ) (_ambient : ℕ → ℕ) : ℕ → ℕ := npStream seed

/-- The counterfactual notebook as a function of the global RNG state: its
first cell runs `np.random.seed(SEED)` and everything afterwards
(`train_test_split`, `RandomForestClassifier`, CoGS) draws from the global
state or from explicit `random_state=SEED` arguments. -/
def seededNotebookRun {Out : Type} (rest : (ℕ → ℕ) → Out) (seed : ℕ)
    (ambient : ℕ → ℕ) : Out :=
  rest (npRandomSeed seed ambient)

end MLNotebooks

namespace MLNotebooks

/-! ## Lemmas about `sigmoid` -/

theorem one_add_exp_pos (t : ℝ) : 0 < 1 + Real.exp (-t) := by
  have h := Real.exp_pos (-t)
  linarith

theorem one_add_exp_ne_zero (t : ℝ) : 1 + Real.exp (-t) ≠ 0 :=
  ne_of_gt (one_add_exp_pos t)

/-- The analytic derivative of the source's `sigmoid` at `t` is
`sigmoid t * (1 - sigmoid t)`. -/
theorem sigmoid_hasDerivAt (t : ℝ) :
    HasDerivAt sigmoid (sigmoid t * (1 - sigmoid t)) t := by
  have hexp : HasDerivAt (fun s : ℝ => Real.exp (-s)) (-Real.exp (-t)) t := by
    have h := (Real.hasDerivAt_exp (-t)).comp t (hasDerivAt_neg t)
    simpa using h
  have hden : HasDerivAt (fun s : ℝ => 1 + Real.exp (-s)) (-Real.exp (-t)) t :=
    hexp.const_add 1
  have hne := one_add_exp_ne_zero t
  have hinv := hden.inv hne
  have heq : sigmoid = fun s : ℝ => (1 + Real.exp (-s))⁻¹ := by
    funext s
    simp [sigmoid, one_div]
  rw [heq]
  convert hinv using 1
  have hne' := hne
  field_simp [sigmoid]
  ring

end MLNotebooks

namespace MLNotebooks

/-! ## The backward pass computes the gradient of the loss

`backward` adds `matmul(t(z2), o_delta)` to `W2` and `matmul(t(X), z2_delta)`
to `W1`.  We prove these increments are `-1/2` times the partial derivatives
of the squared-error loss `nnLoss` in the corresponding weight entries: the
hand-written arithmetic of the notebook is itself a gradient computation. -/

theorem updateW2_self (W : Matrix (Fin 3) (Fin 1) ℝ) (k : Fin 3) :
    updateW2 W k (W k 0) = W := by
  funext k' j
  by_cases h : k' = k
  · subst h
    have hj : j = 0 := Subsingleton.elim j 0
    simp [updateW2, hj]
  · simp [updateW2, h]

theorem mul_updateW2_entry {n : ℕ} (Z : Matrix (Fin n) (Fin 3) ℝ)
    (W : Matrix (Fin 3) (Fin 1) ℝ) (k : Fin 3) (t : ℝ) (i : Fin n) :
    (Z * updateW2 W k t) i 0 =
      (∑ j ∈ Finset.univ \ {k}, Z i j * W j 0) + Z i k * t := by
  rw [Matrix.mul_apply]
  have hfun : (fun j => Z i j * updateW2 W k t j 0) =
      Function.update (fun j => Z i j * W j 0) k (Z i k * t) := by
    funext j
    by_cases h : j = k
    · subst h
      simp [updateW2, Function.update]
    · simp [updateW2, h, Function.update]
  rw [hfun, Finset.sum_update_of_mem (Finset.mem_univ k)]
  ring

/-- C1 (amended): gradient computation is delegated to libraries in every
notebook except the from-scratch one, whose `Neural_Network` computes
derivatives (`sigmoidPrime`) and gradient-based weight updates itself: the
`W2 += matmul(t(z2), o_delta)` step of its `backward` (within `train`, so
with `z2` and `o` as computed by `forward`) adds exactly `-1/2` times the
partial derivative of the squared-error loss in each entry of `W2` — a
hand-written gradient-descent update, not library glue. -/
theorem backward_W2_update_is_loss_gradient {n : ℕ}
    (X : Matrix (Fin n) (Fin 2) ℝ) (y : Matrix (Fin n) (Fin 1) ℝ)
    (w : NNWeights ℝ) (k : Fin 3) :
    HasDerivAt (fun t => nnLoss X y ⟨w.W1, updateW2 w.W2 k t⟩)
      (-2 * ((nnTrain X y w).W2 k 0 - w.W2 k 0)) (w.W2 k 0) := by
  classical
  set Z : Matrix (Fin n) (Fin 3) ℝ := (X * w.W1).map sigmoid with hZ
  set t0 : ℝ := w.W2 k 0 with ht0
  have hentry : ∀ (t : ℝ) (i : Fin n),
      (Z * updateW2 w.W2 k t) i 0 =
        (∑ j ∈ Finset.univ \ {k}, Z i j * w.W2 j 0) + Z i k * t :=
    fun t i => mul_updateW2_entry Z w.W2 k t i
  set c : Fin n → ℝ := fun i => ∑ j ∈ Finset.univ \ {k}, Z i j * w.W2 j 0 with hc
  set a : Fin n → ℝ := fun i => Z i k with ha
  set u : Fin n → ℝ := fun i => c i + a i * t0 with hu
  -- the loss as a function of the single varying entry
  have hfun : (fun t => nnLoss X y ⟨w.W1, updateW2 w.W2 k t⟩) =
      (fun t => ∑ i : Fin n, (y i 0 - sigmoid (c i + a i * t)) ^ 2) := by
    funext t
    unfold nnLoss nnForward
    refine Finset.sum_congr rfl fun i _ => ?_
    have := hentry t i
    simp only [Matrix.map_apply]
    rw [this]
  -- per-sample derivative
  have hterm : ∀ i : Fin n,
      HasDerivAt (fun t => (y i 0 - sigmoid (c i + a i * t)) ^ 2)
        (2 * (y i 0 - sigmoid (u i)) ^ 1 *
          (-(sigmoid (u i) * (1 - sigmoid (u i)) * a i))) t0 := by
    intro i
    have h1 : HasDerivAt (fun t : ℝ => c i + a i * t) (a i) t0 := by
      have h0 := (hasDerivAt_id t0).const_mul (a i)
      simpa using h0.const_add (c i)
    have h2 : HasDerivAt (fun t => sigmoid (c i + a i * t))
        (sigmoid (u i) * (1 - sigmoid (u i)) * a i) t0 := by
      have := (sigmoid_hasDerivAt (u i)).comp t0 h1
      simpa [Function.comp, hu] using this
    have h3 := h2.const_sub (y i 0)
    exact h3.pow 2
  have hsum : HasDerivAt (fun t => ∑ i : Fin n, (y i 0 - sigmoid (c i + a i * t)) ^ 2)
      (∑ i : Fin n, 2 * (y i 0 - sigmoid (u i)) ^ 1 *
        (-(sigmoid (u i) * (1 - sigmoid (u i)) * a i))) t0 :=
    HasDerivAt.sum (fun i _ => hterm i)
  rw [hfun]
  -- identify the derivative value with the increment added by backward
  have hz3 : ∀ i : Fin n, (Z * w.W2) i 0 = u i := by
    intro i
    have := hentry t0 i
    rw [updateW2_self] at this
    simpa [hu, hc, ha] using this
  have htr : nnTrain X y w = nnBackward w Z X y ((Z * w.W2).map sigmoid) := rfl
  have hW2entry : (nnTrain X y w).W2 k 0 =
      w.W2 k 0 + ∑ i : Fin n, Z i k *
        ((y i 0 - sigmoid ((Z * w.W2) i 0)) * sigmoidPrime (sigmoid ((Z * w.W2) i 0))) := by
    rw [htr]
    simp [nnBackward, Matrix.add_apply, Matrix.mul_apply, Matrix.hadamard,
      Matrix.of_apply, Matrix.transpose_apply, Matrix.map_apply, Matrix.sub_apply]
  have hval : (∑ i : Fin n, 2 * (y i 0 - sigmoid (u i)) ^ 1 *
        (-(sigmoid (u i) * (1 - sigmoid (u i)) * a i))) =
      -2 * ((nnTrain X y w).W2 k 0 - w.W2 k 0) := by
    rw [hW2entry, add_sub_cancel_left, Finset.mul_sum]
    refine Finset.sum_congr rfl fun i _ => ?_
    rw [hz3 i]
    simp only [sigmoidPrime, ha]
    ring
  rw [hval] at hsum
  exact hsum

end MLNotebooks

namespace MLNotebooks

theorem updateW1_self (W : Matrix (Fin 2) (Fin 3) ℝ) (k : Fin 2) (l : Fin 3) :
    updateW1 W k l (W k l) = W := by
  funext m j
  by_cases h : m = k ∧ j = l
  · obtain ⟨hm, hj⟩ := h
    subst hm; subst hj
    simp [updateW1]
  · simp [updateW1, h]

theorem mul_updateW1_entry_same {n : ℕ} (X : Matrix (Fin n) (Fin 2) ℝ)
    (W : Matrix (Fin 2) (Fin 3) ℝ) (k : Fin 2) (l : Fin 3) (t : ℝ) (i : Fin n) :
    (X * updateW1 W k l t) i l =
      (∑ m ∈ Finset.univ \ {k}, X i m * W m l) + X i k * t := by
  rw [Matrix.mul_apply]
  have hfun : (fun m => X i m * updateW1 W k l t m l) =
      Function.update (fun m => X i m * W m l) k (X i k * t) := by
    funext m
    by_cases h : m = k
    · subst h
      simp [updateW1, Function.update]
    · simp [updateW1, h, Function.update]
  rw [hfun, Finset.sum_update_of_mem (Finset.mem_univ k)]
  ring

theorem mul_updateW1_entry_other {n : ℕ} (X : Matrix (Fin n) (Fin 2) ℝ)
    (W : Matrix (Fin 2) (Fin 3) ℝ) (k : Fin 2) (l : Fin 3) (t : ℝ) (i : Fin n)
    (j : Fin 3) (hj : j ≠ l) :
    (X * updateW1 W k l t) i j = (X * W) i j := by
  rw [Matrix.mul_apply, Matrix.mul_apply]
  refine Finset.sum_congr rfl fun m _ => ?_
  have : ¬(m = k ∧ j = l) := fun h => hj h.2
  simp [updateW1, this]

/-- C2 (amended): the BoW/CBOW/hello-world loops update parameters only
through library optimizer calls, but the from-scratch loop's
`NN.train(X, y)` performs the update by hand-written arithmetic: the
`W1 += matmul(t(X), z2_delta)` step of `backward` (within `train`, so with
`z2` and `o` as computed by `forward`) adds exactly `-1/2` times the partial
derivative of the squared-error loss in each entry of `W1` — the two-layer
backpropagation update is computed in repository code, with no optimizer. -/
theorem backward_W1_update_is_loss_gradient {n : ℕ}
    (X : Matrix (Fin n) (Fin 2) ℝ) (y : Matrix (Fin n) (Fin 1) ℝ)
    (w : NNWeights ℝ) (k : Fin 2) (l : Fin 3) :
    HasDerivAt (fun t => nnLoss X y ⟨updateW1 w.W1 k l t, w.W2⟩)
      (-2 * ((nnTrain X y w).W1 k l - w.W1 k l)) (w.W1 k l) := by
  classical
  set Z : Matrix (Fin n) (Fin 3) ℝ := (X * w.W1).map sigmoid with hZ
  set t0 : ℝ := w.W1 k l with ht0
  set W2l : ℝ := w.W2 l 0 with hW2l
  set d : Fin n → ℝ := fun i => ∑ m ∈ Finset.univ \ {k}, X i m * w.W1 m l with hd
  set b : Fin n → ℝ := fun i => X i k with hb
  set e : Fin n → ℝ :=
    fun i => ∑ j ∈ Finset.univ \ {l}, sigmoid ((X * w.W1) i j) * w.W2 j 0 with he
  set v : Fin n → ℝ := fun i => d i + b i * t0 with hv
  set s0 : Fin n → ℝ := fun i => e i + sigmoid (v i) * W2l with hs0
  have hvz : ∀ i : Fin n, (X * w.W1) i l = v i := by
    intro i
    have := mul_updateW1_entry_same X w.W1 k l t0 i
    rw [updateW1_self] at this
    simpa [hv, hd, hb] using this
  -- the inner product `(z2 * W2) i 0` with the `l`-th column singled out
  have hrow : ∀ (M : Matrix (Fin n) (Fin 3) ℝ) (i : Fin n),
      ((M.map sigmoid) * w.W2) i 0 =
        sigmoid (M i l) * W2l + ∑ j ∈ Finset.univ \ {l}, sigmoid (M i j) * w.W2 j 0 := by
    intro M i
    rw [Matrix.mul_apply]
    have hfun : (fun j => (M.map sigmoid) i j * w.W2 j 0) =
        Function.update (fun j => sigmoid (M i j) * w.W2 j 0) l (sigmoid (M i l) * W2l) := by
      funext j
      by_cases h : j = l
      · subst h
        simp [Matrix.map_apply, Function.update, hW2l]
      · simp [Matrix.map_apply, h, Function.update]
    rw [hfun, Finset.sum_update_of_mem (Finset.mem_univ l)]
  have hupdrow : ∀ (t : ℝ) (i : Fin n),
      ∑ j ∈ Finset.univ \ {l}, sigmoid ((X * updateW1 w.W1 k l t) i j) * w.W2 j 0 = e i := by
    intro t i
    refine Finset.sum_congr rfl fun j hj => ?_
    have hjl : j ≠ l := by
      rcases Finset.mem_sdiff.mp hj with ⟨-, hj2⟩
      simpa using hj2
    rw [mul_updateW1_entry_other X w.W1 k l t i j hjl]
  have hfun : (fun t => nnLoss X y ⟨updateW1 w.W1 k l t, w.W2⟩) =
      (fun t => ∑ i : Fin n,
        (y i 0 - sigmoid (e i + sigmoid (d i + b i * t) * W2l)) ^ 2) := by
    funext t
    unfold nnLoss nnForward
    refine Finset.sum_congr rfl fun i _ => ?_
    simp only [Matrix.map_apply]
    rw [hrow (X * updateW1 w.W1 k l t) i, hupdrow t i,
      mul_updateW1_entry_same X w.W1 k l t i]
    simp only [hd, hb]
    ring_nf
  have hterm : ∀ i : Fin n,
      HasDerivAt (fun t => (y i 0 - sigmoid (e i + sigmoid (d i + b i * t) * W2l)) ^ 2)
        (2 * (y i 0 - sigmoid (s0 i)) ^ 1 *
          (-(sigmoid (s0 i) * (1 - sigmoid (s0 i)) *
            (sigmoid (v i) * (1 - sigmoid (v i)) * b i * W2l)))) t0 := by
    intro i
    have h1 : HasDerivAt (fun t : ℝ => d i + b i * t) (b i) t0 := by
      have h0 := (hasDerivAt_id t0).const_mul (b i)
      simpa using h0.const_add (d i)
    have h2 : HasDerivAt (fun t => sigmoid (d i + b i * t))
        (sigmoid (v i) * (1 - sigmoid (v i)) * b i) t0 := by
      have := (sigmoid_hasDerivAt (v i)).comp t0 h1
      simpa [Function.comp, hv] using this
    have h3 := h2.mul_const W2l
    have h4 := h3.const_add (e i)
    have h5 : HasDerivAt (fun t => sigmoid (e i + sigmoid (d i + b i * t) * W2l))
        (sigmoid (s0 i) * (1 - sigmoid (s0 i)) *
          (sigmoid (v i) * (1 - sigmoid (v i)) * b i * W2l)) t0 := by
      have := (sigmoid_hasDerivAt (s0 i)).comp t0 h4
      simpa [Function.comp, hs0, mul_assoc] using this
    have h6 := h5.const_sub (y i 0)
    exact h6.pow 2
  have hsum := HasDerivAt.sum (fun i (_ : i ∈ Finset.univ) => hterm i)
  rw [hfun]
  -- identify the derivative value with the increment added by backward
  have hz3 : ∀ i : Fin n, (Z * w.W2) i 0 = s0 i := by
    intro i
    have h1 := hrow (X * w.W1) i
    rw [hvz i] at h1
    rw [show (Z * w.W2) i 0 = ((X * w.W1).map sigmoid * w.W2) i 0 from rfl, h1]
    simp only [hs0, he]
    ring
  have htr : nnTrain X y w = nnBackward w Z X y ((Z * w.W2).map sigmoid) := rfl
  have hW1entry : (nnTrain X y w).W1 k l =
      w.W1 k l + ∑ i : Fin n, X i k *
        ((y i 0 - sigmoid ((Z * w.W2) i 0)) * sigmoidPrime (sigmoid ((Z * w.W2) i 0)) *
          w.W2 l 0 * sigmoidPrime (Z i l)) := by
    rw [htr]
    simp [nnBackward, Matrix.add_apply, Matrix.mul_apply, Matrix.hadamard,
      Matrix.of_apply, Matrix.transpose_apply, Matrix.map_apply, Matrix.sub_apply,
      Fin.sum_univ_one, mul_assoc]
  have hval : (∑ i : Fin n, 2 * (y i 0 - sigmoid (s0 i)) ^ 1 *
        (-(sigmoid (s0 i) * (1 - sigmoid (s0 i)) *
          (sigmoid (v i) * (1 - sigmoid (v i)) * b i * W2l)))) =
      -2 * ((nnTrain X y w).W1 k l - w.W1 k l) := by
    rw [hW1entry, add_sub_cancel_left, Finset.mul_sum]
    refine Finset.sum_congr rfl fun i _ => ?_
    rw [hz3 i]
    have hZil : Z i l = sigmoid (v i) := by
      simp [hZ, Matrix.map_apply, hvz i]
    rw [hZil]
    simp only [sigmoidPrime, hb, hW2l]
    ring
  rw [hval] at hsum
  exact hsum

end MLNotebooks

namespace MLNotebooks

/-! ## Claim theorems for the from-scratch network -/

/-- C1 counterexample.  The claim says no function defined in the repository
computes derivatives or gradient-based weight updates itself — the notebooks
add only glue code.  But `Neural_Network.backward` alters `self.W1` by
hand-written arithmetic: at the explicit state `nnCexW`/`nnCexZ2`/… its `W1`
entry `(0,0)` changes from `0` to `3/32`. -/
theorem claim_C1_counterexample :
    (nnBackward nnCexW nnCexZ2 nnCexX nnCexY nnCexO).W1 0 0 ≠ nnCexW.W1 0 0 := by
  norm_num [nnBackward, nnCexW, nnCexZ2, nnCexX, nnCexY, nnCexO, Matrix.mul_apply,
    Matrix.hadamard, Fin.sum_univ_three, sigmoidPrime, Matrix.transpose, Matrix.map]

/-- C2 counterexample.  The claim says every notebook's training iteration
updates parameters only via a library optimizer call.  But the from-scratch
loop's `NN.train(X, y)` calls `backward`, which alters `self.W2` itself by
hand-written arithmetic: at the explicit state `nnCexW`/`nnCexZ2`/… its `W2`
entry `(0,0)` changes from `1` to `19/16`, with no optimizer involved. -/
theorem claim_C2_counterexample :
    (nnBackward nnCexW nnCexZ2 nnCexX nnCexY nnCexO).W2 0 0 ≠ nnCexW.W2 0 0 := by
  norm_num [nnBackward, nnCexW, nnCexZ2, nnCexX, nnCexY, nnCexO, Matrix.mul_apply,
    Matrix.hadamard, Fin.sum_univ_three, sigmoidPrime, Matrix.transpose, Matrix.map]

/-- C10: over exact real arithmetic, `sigmoidPrime` applied to the sigmoid's
output is the true derivative of `sigmoid`: for every `t`,
`sigmoid` has derivative `sigmoidPrime (sigmoid t) = sigmoid t * (1 - sigmoid t)`
at `t`. -/
theorem claim_C10_sigmoidPrime_is_true_derivative (t : ℝ) :
    HasDerivAt sigmoid (sigmoidPrime (sigmoid t)) t := by
  simpa [sigmoidPrime] using sigmoid_hasDerivAt t

end MLNotebooks

namespace MLNotebooks

/-! ## Lemmas about the `" ||| "` split -/

theorem splitSepGo_ne_nil (s acc : List Char) : splitSepGo s acc ≠ [] := by
  induction s, acc using splitSepGo.induct with
  | case1 acc => simp [splitSepGo]
  | case2 rest acc ih => simp [splitSepGo]
  | case3 c rest acc h ih =>
      rw [splitSepGo]
      · exact ih
      · exact h

theorem splitSepGo_of_hasSep_eq_false (s acc : List Char) (h : hasSep s = false) :
    splitSepGo s acc = [acc.reverse ++ s] := by
  induction s, acc using splitSepGo.induct with
  | case1 acc => simp [splitSepGo]
  | case2 rest acc ih => simp [hasSep] at h
  | case3 c rest acc hnot ih =>
      rw [splitSepGo]
      · rw [hasSep] at h
        · rw [ih h]
          simp
        · exact hnot
      · exact hnot

theorem two_le_splitSepGo_of_hasSep (s acc : List Char) (h : hasSep s = true) :
    2 ≤ (splitSepGo s acc).length := by
  induction s, acc using splitSepGo.induct with
  | case1 acc => simp [hasSep] at h
  | case2 rest acc ih =>
      rw [splitSepGo]
      have h1 := splitSepGo_ne_nil rest []
      have h2 : 1 ≤ (splitSepGo rest []).length := by
        cases hE : splitSepGo rest [] with
        | nil => exact absurd hE h1
        | cons a l => simp
      simp only [List.length_cons]
      omega
  | case3 c rest acc hnot ih =>
      rw [splitSepGo]
      · rw [hasSep] at h
        · exact ih h
        · exact hnot
      · exact hnot

/-- C9 (amended): `line[0]` is always in range; the `line[1]` access of
`create_dict`/`create_tensor` is in range exactly when the lowercased,
stripped line still contains an occurrence of `" ||| "`; and a processed
line without the separator comes out as the singleton list holding the
whole processed line (whose `line[1]` access then fails). -/
theorem claim_C9_separator_iff (raw : List Char) :
    ((read_line raw).get? 0).isSome = true
    ∧ (((read_line raw).get? 1).isSome = true ↔
        hasSep (pyStrip (pyLower raw)) = true)
    ∧ (hasSep (pyStrip (pyLower raw)) = false →
        read_line raw = [pyStrip (pyLower raw)]) := by
  have hne : read_line raw ≠ [] := splitSepGo_ne_nil _ _
  have hlen : 0 < (read_line raw).length := List.length_pos.mpr hne
  have hsingle : hasSep (pyStrip (pyLower raw)) = false →
      read_line raw = [pyStrip (pyLower raw)] := by
    intro h
    have := splitSepGo_of_hasSep_eq_false (pyStrip (pyLower raw)) [] h
    simpa [read_line] using this
  refine ⟨?_, ⟨?_, ?_⟩, hsingle⟩
  · have : (read_line raw).get? 0 ≠ none := by
      intro hc
      rw [List.get?_eq_none] at hc
      omega
    exact Option.isSome_iff_ne_none.mpr this
  · intro h1
    by_contra hsep
    have hfalse : hasSep (pyStrip (pyLower raw)) = false := by
      cases hv : hasSep (pyStrip (pyLower raw)) with
      | false => rfl
      | true => exact absurd hv hsep
    have := hsingle hfalse
    rw [this] at h1
    simp at h1
  · intro h
    have h2 : 2 ≤ (read_line raw).length := two_le_splitSepGo_of_hasSep _ _ h
    have : (read_line raw).get? 1 ≠ none := by
      intro hc
      rw [List.get?_eq_none] at hc
      omega
    exact Option.isSome_iff_ne_none.mpr this

/-- Witness for C9's amended theorem at concrete lines: a line with the
separator has `line[1]`, and a line without it is a singleton. -/
theorem claim_C9_separator_iff_witness :
    ((read_line "good ||| a great movie".toList).get? 1).isSome = true
    ∧ read_line "no separator here".toList =
        [pyStrip (pyLower "no separator here".toList)] := by
  constructor
  · exact (claim_C9_separator_iff "good ||| a great movie".toList).2.1.mpr (by decide)
  · exact (claim_C9_separator_iff "no separator here".toList).2.2 (by decide)

/-- C9 counterexample: the raw dataset line `"x ||| "` contains an
occurrence of `" ||| "`, yet `strip` destroys the occurrence (the trailing
space goes), the processed line comes out as a singleton, and the `line[1]`
access still fails — so "in range exactly when every line of the dataset
file contains at least one occurrence" is false of raw file lines. -/
theorem claim_C9_counterexample :
    hasSep "x ||| ".toList = true
    ∧ (read_line "x ||| ".toList).get? 1 = none := by
  constructor
  · decide
  · decide

end MLNotebooks

namespace MLNotebooks

/-! ## BoW / CBoW forward equals summed embeddings -/

theorem sumDim0_apply {k : ℕ} (l : List (Fin k → ℚ)) (i : Fin k) :
    sumDim0 l i = (l.map (fun v => v i)).sum := by
  suffices h : ∀ acc : Fin k → ℚ,
      (l.foldl (fun acc v => acc + v) acc) i = acc i + (l.map (fun v => v i)).sum by
    simpa [sumDim0] using h 0
  induction l with
  | nil => intro acc; simp
  | cons v rest ih =>
      intro acc
      simp only [List.foldl_cons, List.map_cons, List.sum_cons, ih, Pi.add_apply]
      ring

/-- C5: `BoW.forward` is the elementwise sum of the tokens' embedding rows
plus the bias, reshaped `(1, ntags)`; `CBoW.forward` is the linear layer
applied to the sum of the tokens' embedding rows, reshaped `(1, emb_size)`.
(Proved for every token sequence, in particular every non-empty one.) -/
theorem claim_C5_forward_sums_embeddings (nwords ntags emb : ℕ)
    (E : Fin nwords → Fin ntags → ℚ) (bias : Fin ntags → ℚ)
    (E2 : Fin nwords → Fin emb → ℚ) (A : Fin ntags → Fin emb → ℚ)
    (b : Fin ntags → ℚ) (x : List (Fin nwords)) :
    BoW.forward E bias x = BoW.summedScores E bias x
    ∧ CBoW.forward E2 A b x = CBoW.summedScores E2 A b x := by
  constructor
  · funext r t
    rw [show BoW.forward E bias x r t = sumDim0 (x.map E) t + bias t from rfl,
      sumDim0_apply, List.map_map]
    rfl
  · funext r t
    rw [show CBoW.forward E2 A b x r t =
      (∑ j, sumDim0 (x.map E2) j * A t j) + b t from rfl]
    refine congrArg (fun s => s + b t) ?_
    refine Finset.sum_congr rfl fun j _ => ?_
    rw [sumDim0_apply, List.map_map]
    rfl

end MLNotebooks

namespace MLNotebooks

/-! ## The counterfactual notebook's success / failure branch -/

theorem foldl_conditional_append {α β : Type} (p : α → Prop) [DecidablePred p]
    (f : α → β) (l : List α) (init : List β) :
    l.foldl (fun acc i => if p i then acc ++ [f i] else acc) init
      = init ++ (l.filter (fun i => decide (p i))).map f := by
  induction l generalizing init with
  | nil => simp
  | cons a rest ih =>
      by_cases h : p a
      · simp [List.foldl_cons, h, ih, List.filter_cons]
      · simp [List.foldl_cons, h, ih, List.filter_cons]

/-- C4: when the prediction is not the desired class, the final cell prints
only the failure message (the branch is a plain print: it raises nothing,
retries nothing, and — being a pure function of its inputs here — changes no
other state); when it is, the cell prints the success header followed by
exactly the features whose change `cf_explanation[i]` is nonzero, in order. -/
theorem claim_C4_branch_prints (d : ℕ) (predict : (Fin d → ℚ) → ℤ)
    (desired : ℤ) (names : Fin d → String) (x elite : Fin d → ℚ) :
    (predict elite ≠ desired →
      showExplanation predict desired names x elite = [OutLine.failureMsg])
    ∧ (predict elite = desired →
      showExplanation predict desired names x elite =
        OutLine.successHeader ::
          ((List.finRange d).filter (fun i => decide (elite i - x i ≠ 0))).map
            (fun i => OutLine.featureChange (names i) (x i) (elite i))) := by
  constructor
  · intro h
    simp [showExplanation, h]
  · intro h
    have hbr : showExplanation predict desired names x elite =
        OutLine.successHeader ::
          explanationLines names x elite (fun i => elite i - x i) := by
      simp [showExplanation, h]
    rw [hbr, explanationLines,
      foldl_conditional_append (fun i => elite i - x i ≠ 0)
        (fun i => OutLine.featureChange (names i) (x i) (elite i))
        (List.finRange d) []]
    simp

/-- Witness for C4 at a concrete scenario: a failed desired class prints
only the failure line; the successful one prints the header and the single
changed feature. -/
theorem claim_C4_branch_prints_witness :
    showExplanation toyPredict 5 (fun _ => "savings") toyX toyElite =
        [OutLine.failureMsg]
    ∧ showExplanation toyPredict 1 (fun _ => "savings") toyX toyElite =
        OutLine.successHeader ::
          ((List.finRange 1).filter (fun i => decide (toyElite i - toyX i ≠ 0))).map
            (fun i => OutLine.featureChange ((fun _ => "savings") i) (toyX i) (toyElite i)) := by
  constructor
  · exact (claim_C4_branch_prints 1 toyPredict 5 (fun _ => "savings") toyX toyElite).1
      (by decide)
  · exact (claim_C4_branch_prints 1 toyPredict 1 (fun _ => "savings") toyX toyElite).2
      (by decide)

/-- C3 counterexample: a black-box classifier and an elite that the success
check accepts (so the explanation is printed), for which a strictly smaller
perturbation also flips the class: the printed explanation is not a minimal
perturbation.  Nothing in the notebook's code checks minimality — the
success branch tests only `bbm.predict([cf_example])[0] == desired_class` —
and the heuristic search offers no such guarantee. -/
theorem claim_C3_counterexample :
    (showExplanation toyPredict 1 (fun _ => "savings") toyX toyElite).head? =
        some OutLine.successHeader
    ∧ ¬ printedExplanationIsMinimalCE toyPredict 1 toyX toyElite := by
  constructor
  · decide
  · intro hmin
    have hsize : pertSize toyZ toyX < pertSize toyElite toyX := by
      norm_num [pertSize, toyZ, toyX, toyElite, Fin.sum_univ_one]
    exact hmin.2 toyZ hsize (by decide)

/-- C3 (amended): whenever the success branch prints an explanation, the
counterfactual example does flip the black-box prediction to the desired
class, and it is exactly the perturbation of `x` by the printed explanation
`cf_explanation = cogs.elite - x`; minimality of the perturbation is neither
checked nor guaranteed. -/
theorem claim_C3_success_is_flip (d : ℕ) (predict : (Fin d → ℚ) → ℤ)
    (desired : ℤ) (names : Fin d → String) (x elite : Fin d → ℚ)
    (h : (showExplanation predict desired names x elite).head? =
      some OutLine.successHeader) :
    predict elite = desired ∧ (fun i => x i + (elite i - x i)) = elite := by
  by_cases hp : predict elite = desired
  · exact ⟨hp, by funext i; ring⟩
  · exfalso
    simp [showExplanation, hp] at h

/-- Witness for C3's amended theorem at the concrete toy scenario. -/
theorem claim_C3_success_is_flip_witness :
    toyPredict toyElite = 1
    ∧ (fun i => toyX i + (toyElite i - toyX i)) = toyElite :=
  claim_C3_success_is_flip 1 toyPredict 1 (fun _ => "savings") toyX toyElite
    (by decide)

end MLNotebooks

namespace MLNotebooks

/-! ## Fixed iteration counts and termination of the training loops -/

theorem forRange_eq_iterate {S : Type} (n : ℕ) (body : S → S) (init : S) :
    forRange n body init = body^[n] init := by
  induction n with
  | zero => simp [forRange]
  | succ m ih =>
      rw [forRange, List.range_succ, List.foldl_append]
      simp only [List.foldl_cons, List.foldl_nil]
      rw [show (List.range m).foldl (fun s _ => body s) init = forRange m body init
        from rfl, ih, Function.iterate_succ_apply']

theorem forRangeTrace_length {S : Type} (n : ℕ) (body : S → S) (init : S) :
    (forRangeTrace n body init).length = n := by
  simp [forRangeTrace, List.length_scanl]

/-- C6: each training loop executes exactly its fixed number of iterations
and terminates — 10 epochs for BoW and CBOW, 150 for the hello-world loop,
1000 for the from-scratch loop — the final state being the loop body
iterated that many times (everything after the loop is straight-line
printing). -/
theorem claim_C6_fixed_iteration_counts :
    (∀ (S : Type) (epoch : S → S) (s0 : S),
      (forRangeTrace 10 epoch s0).length = 10
      ∧ bowTrainingLoop epoch s0 = epoch^[10] s0
      ∧ cbowTrainingLoop epoch s0 = epoch^[10] s0)
    ∧ (∀ (S : Type) (body : S → S) (s0 : S),
      (forRangeTrace 150 body s0).length = 150
      ∧ helloWorldTrainingLoop body s0 = body^[150] s0)
    ∧ (∀ (n : ℕ) (X : Matrix (Fin n) (Fin 2) ℝ) (y : Matrix (Fin n) (Fin 1) ℝ)
        (w0 : NNWeights ℝ),
      (forRangeTrace 1000 (nnTrain X y) w0).length = 1000
      ∧ scratchTrainingLoop X y w0 = (nnTrain X y)^[1000] w0) := by
  refine ⟨fun S e s0 => ⟨forRangeTrace_length _ _ _, ?_, ?_⟩,
    fun S b s0 => ⟨forRangeTrace_length _ _ _, ?_⟩,
    fun n X y w0 => ⟨forRangeTrace_length _ _ _, ?_⟩⟩
  · rw [show bowTrainingLoop e s0 = forRange 10 e s0 from rfl, forRange_eq_iterate]
  · rw [show cbowTrainingLoop e s0 = forRange 10 e s0 from rfl, forRange_eq_iterate]
  · rw [show helloWorldTrainingLoop b s0 = forRange 150 b s0 from rfl,
      forRange_eq_iterate]
  · rw [show scratchTrainingLoop X y w0 = forRange 1000 (nnTrain X y) w0 from rfl,
      forRange_eq_iterate]

end MLNotebooks

namespace MLNotebooks

/-! ## Seeded vs unseeded randomness -/

/-- C7 counterexample: the claim asserts two-run determinism for every
notebook, but the BoW/CBOW training loops shuffle with the never-seeded
`random` module: two ambient entropy streams that `randbelow` could return
(`drawsA`, `drawsB`) already put the two-sentence training set in different
orders, so the runs feed the optimizer differently. -/
theorem claim_C7_counterexample :
    train_bow_shuffle drawsA [10, 20] ≠ train_bow_shuffle drawsB [10, 20] := by
  decide

/-- C7 (amended): the counterfactual-explanations notebook, the only one
that seeds its randomness (`np.random.seed(SEED)` plus explicit
`random_state=SEED` arguments), is two-run deterministic — the seeded run is
independent of the ambient RNG state — while the unseeded shuffles of the
torch notebooks admit two runs that order the training data differently. -/
theorem claim_C7_seed_determinism :
    (∀ (Out : Type) (rest : (ℕ → ℕ) → Out) (a1 a2 : ℕ → ℕ),
      seededNotebookRun rest 42 a1 = seededNotebookRun rest 42 a2)
    ∧ (∃ (d1 d2 : ℕ → ℕ) (l : List ℕ),
      train_bow_shuffle d1 l ≠ train_bow_shuffle d2 l) := by
  refine ⟨fun Out rest a1 a2 => rfl, ⟨drawsA, drawsB, [10, 20], by decide⟩⟩

end MLNotebooks

namespace MLNotebooks

/-! ## Dictionary invariants of `create_dict` / `create_tensor` -/

/-! ### lookup / append lemmas -/

theorem dictLookup_append_of_isSome (d e : Dict) (w : String)
    (h : (dictLookup d w).isSome) : dictLookup (d ++ e) w = dictLookup d w := by
  induction d with
  | nil => simp [dictLookup] at h
  | cons p rest ih =>
      obtain ⟨k, v⟩ := p
      by_cases hk : k = w
      · simp [dictLookup, hk]
      · simp only [dictLookup, hk, if_false, List.cons_append] at h ⊢
        exact ih h

theorem dictLookup_append_of_none (d e : Dict) (w : String)
    (h : dictLookup d w = none) : dictLookup (d ++ e) w = dictLookup e w := by
  induction d with
  | nil => simp
  | cons p rest ih =>
      obtain ⟨k, v⟩ := p
      by_cases hk : k = w
      · simp [dictLookup, hk] at h
      · simp only [dictLookup, hk, if_false, List.cons_append] at h ⊢
        exact ih h

theorem addEntry_lookup_of_isSome (vf : Dict → ℕ) (d : Dict) (w' w : String)
    (h : (dictLookup d w).isSome) :
    dictLookup (addEntry vf d w') w = dictLookup d w := by
  unfold addEntry
  by_cases hk : dictHasKey d w' = true
  · rw [if_pos hk]
  · rw [if_neg hk]
    exact dictLookup_append_of_isSome d _ w h

theorem addEntry_lookup_self_isSome (vf : Dict → ℕ) (d : Dict) (w : String) :
    (dictLookup (addEntry vf d w) w).isSome := by
  unfold addEntry
  by_cases hk : dictHasKey d w = true
  · rw [if_pos hk]
    exact hk
  · rw [if_neg hk]
    have hnone : dictLookup d w = none := by
      unfold dictHasKey at hk
      exact Option.not_isSome_iff_eq_none.mp hk
    rw [dictLookup_append_of_none d _ w hnone]
    simp [dictLookup]

theorem addEntry_lookup_cases (vf : Dict → ℕ) (d : Dict) (w' w : String) :
    dictLookup (addEntry vf d w') w = dictLookup d w
    ∨ (dictLookup d w = none ∧ dictLookup (addEntry vf d w') w = some (vf d)) := by
  unfold addEntry
  by_cases hk : dictHasKey d w' = true
  · left; rw [if_pos hk]
  · rw [if_neg hk]
    by_cases hw : (dictLookup d w).isSome
    · left; exact dictLookup_append_of_isSome d _ w hw
    · have hnone : dictLookup d w = none := Option.not_isSome_iff_eq_none.mp hw
      rw [dictLookup_append_of_none d _ w hnone]
      by_cases hww : w' = w
      · right
        exact ⟨hnone, by simp [dictLookup, hww]⟩
      · left
        simp [dictLookup, hww, hnone]

/-! ### fold-level lemmas -/

theorem foldl_addEntry_lookup_of_isSome (vf : Dict → ℕ) (ws : List String)
    (d : Dict) (w : String) (h : (dictLookup d w).isSome) :
    dictLookup (ws.foldl (addEntry vf) d) w = dictLookup d w := by
  induction ws generalizing d with
  | nil => rfl
  | cons w' rest ih =>
      rw [List.foldl_cons]
      have h2 : (dictLookup (addEntry vf d w') w).isSome := by
        rw [addEntry_lookup_of_isSome vf d w' w h]; exact h
      rw [ih _ h2, addEntry_lookup_of_isSome vf d w' w h]

theorem foldl_addEntry_mem_isSome (vf : Dict → ℕ) (ws : List String)
    (w : String) (h : w ∈ ws) :
    ∀ d : Dict, (dictLookup (ws.foldl (addEntry vf) d) w).isSome := by
  induction ws with
  | nil => simp at h
  | cons w' rest ih =>
      intro d
      rw [List.foldl_cons]
      rcases List.mem_cons.mp h with heq | hmem
      · subst heq
        have h2 := addEntry_lookup_self_isSome vf d w
        rw [foldl_addEntry_lookup_of_isSome vf rest _ w h2]
        exact h2
      · exact ih hmem _

/-! ### value invariants -/

theorem rangeVals_initWordDict : RangeVals initWordDict := by
  simp [RangeVals, initWordDict, List.range_succ]

theorem unkZero_initWordDict : UnkZero initWordDict := by
  simp [UnkZero, initWordDict, dictLookup]

theorem rangeVals_addWordTrain (d : Dict) (w : String) (h : RangeVals d) :
    RangeVals (addWordTrain d w) := by
  unfold addWordTrain addEntry
  by_cases hk : dictHasKey d w = true
  · rw [if_pos hk]; exact h
  · rw [if_neg hk]
    unfold RangeVals at h ⊢
    simp [List.map_append, h, List.length_append, List.range_succ]

theorem rangeVals_foldl_addWordTrain (ws : List String) (d : Dict)
    (h : RangeVals d) : RangeVals (ws.foldl addWordTrain d) := by
  induction ws generalizing d with
  | nil => exact h
  | cons w rest ih =>
      rw [List.foldl_cons]
      exact ih _ (rangeVals_addWordTrain d w h)

theorem boundedVals_of_rangeVals (d : Dict) (h : RangeVals d) : BoundedVals d := by
  intro p hp
  have : p.2 ∈ d.map Prod.snd := List.mem_map_of_mem Prod.snd hp
  rw [h, List.mem_range] at this
  exact this

theorem boundedVals_append (d : Dict) (w : String) (v : ℕ) (h : BoundedVals d)
    (hv : v ≤ d.length) : BoundedVals (d ++ [(w, v)]) := by
  intro p hp
  rw [List.length_append]
  rcases List.mem_append.mp hp with hold | hnew
  · have := h p hold
    omega
  · simp at hnew
    subst hnew
    simp only [List.length_cons, List.length_nil]
    omega

theorem unkZero_addEntry (vf : Dict → ℕ) (d : Dict) (w : String) (h : UnkZero d) :
    UnkZero (addEntry vf d w) := by
  unfold UnkZero at h ⊢
  rw [addEntry_lookup_of_isSome vf d w _ (by rw [h]; rfl)]
  exact h

theorem unkZero_foldl_addEntry (vf : Dict → ℕ) (ws : List String) (d : Dict)
    (h : UnkZero d) : UnkZero (ws.foldl (addEntry vf) d) := by
  induction ws generalizing d with
  | nil => exact h
  | cons w rest ih =>
      rw [List.foldl_cons]
      exact ih _ (unkZero_addEntry vf d w h)

theorem boundedVals_addWordTest (d : Dict) (w : String) (h : BoundedVals d)
    (hunk : UnkZero d) : BoundedVals (addWordTest d w) := by
  unfold UnkZero at hunk
  unfold addWordTest addEntry
  by_cases hk : dictHasKey d w = true
  · rw [if_pos hk]; exact h
  · rw [if_neg hk]
    refine boundedVals_append d w _ h ?_
    simp [hunk]

theorem boundedVals_foldl_addWordTest (ws : List String) (d : Dict)
    (h : BoundedVals d) (hunk : UnkZero d) :
    BoundedVals (ws.foldl addWordTest d) := by
  induction ws generalizing d with
  | nil => exact h
  | cons w rest ih =>
      rw [List.foldl_cons]
      exact ih _ (boundedVals_addWordTest d w h hunk)
        (unkZero_addEntry _ d w hunk)

/-! ### unseen test words receive index 0 -/

theorem foldl_addWordTest_lookup_cases (ws : List String) (d : Dict)
    (hunk : UnkZero d) (w : String) :
    dictLookup (ws.foldl addWordTest d) w = dictLookup d w
    ∨ dictLookup (ws.foldl addWordTest d) w = some 0 := by
  induction ws generalizing d with
  | nil => left; rfl
  | cons w' rest ih =>
      rw [List.foldl_cons]
      have hunk2 : UnkZero (addWordTest d w') :=
        unkZero_addEntry _ d w' hunk
      rcases ih (addWordTest d w') hunk2 with h1 | h1
      · rw [h1]
        have hcases : dictLookup (addWordTest d w') w = dictLookup d w
            ∨ (dictLookup d w = none ∧ dictLookup (addWordTest d w') w =
              some ((dictLookup d "<unk>").getD 0)) :=
          addEntry_lookup_cases _ d w' w
        rcases hcases with h2 | ⟨hnone, h2⟩
        · left; exact h2
        · right
          rw [h2]
          unfold UnkZero at hunk
          rw [hunk]
          rfl
      · right; exact h1

/-! ### data-level folds -/

theorem create_dict_false_eq (data : List (String × String)) :
    ∀ st : Dict × Dict,
      create_dict false st data = (trainWordsFold st.1 data, tagsFold st.2 data) := by
  induction data with
  | nil => intro st; rfl
  | cons line rest ih =>
      intro st
      show create_dict false (create_dict_line false st line) rest = _
      rw [ih]
      unfold trainWordsFold tagsFold
      rw [List.foldl_cons, List.foldl_cons]
      have h1 : (create_dict_line false st line).1 =
          (splitWords line.2).foldl addWordTrain st.1 := by
        simp [create_dict_line]
      have h2 : (create_dict_line false st line).2 = addTag st.2 line.1 := rfl
      rw [h1, h2]

theorem create_dict_true_eq (data : List (String × String)) :
    ∀ st : Dict × Dict,
      create_dict true st data = (testWordsFold st.1 data, tagsFold st.2 data) := by
  induction data with
  | nil => intro st; rfl
  | cons line rest ih =>
      intro st
      show create_dict true (create_dict_line true st line) rest = _
      rw [ih]
      unfold testWordsFold tagsFold
      rw [List.foldl_cons, List.foldl_cons]
      have h1 : (create_dict_line true st line).1 =
          (splitWords line.2).foldl addWordTest st.1 := by
        simp [create_dict_line]
      have h2 : (create_dict_line true st line).2 = addTag st.2 line.1 := rfl
      rw [h1, h2]

theorem trainWordsFold_lookup_of_isSome (data : List (String × String))
    (d : Dict) (w : String) (h : (dictLookup d w).isSome) :
    dictLookup (trainWordsFold d data) w = dictLookup d w := by
  induction data generalizing d with
  | nil => rfl
  | cons line rest ih =>
      unfold trainWordsFold
      rw [List.foldl_cons]
      have hstep : dictLookup ((splitWords line.2).foldl addWordTrain d) w =
          dictLookup d w :=
        foldl_addEntry_lookup_of_isSome (fun d => d.length) _ d w h
      have h2 : (dictLookup ((splitWords line.2).foldl addWordTrain d) w).isSome := by
        rw [hstep]; exact h
      rw [show (rest.foldl (fun d line => (splitWords line.2).foldl addWordTrain d)
        ((splitWords line.2).foldl addWordTrain d)) =
        trainWordsFold ((splitWords line.2).foldl addWordTrain d) rest from rfl]
      rw [ih _ h2, hstep]

theorem testWordsFold_lookup_of_isSome (data : List (String × String))
    (d : Dict) (w : String) (h : (dictLookup d w).isSome) :
    dictLookup (testWordsFold d data) w = dictLookup d w := by
  induction data generalizing d with
  | nil => rfl
  | cons line rest ih =>
      unfold testWordsFold
      rw [List.foldl_cons]
      have hstep : dictLookup ((splitWords line.2).foldl addWordTest d) w =
          dictLookup d w :=
        foldl_addEntry_lookup_of_isSome (fun d => (dictLookup d "<unk>").getD 0) _ d w h
      have h2 : (dictLookup ((splitWords line.2).foldl addWordTest d) w).isSome := by
        rw [hstep]; exact h
      rw [show (rest.foldl (fun d line => (splitWords line.2).foldl addWordTest d)
        ((splitWords line.2).foldl addWordTest d)) =
        testWordsFold ((splitWords line.2).foldl addWordTest d) rest from rfl]
      rw [ih _ h2, hstep]

theorem trainWordsFold_mem_isSome (data : List (String × String))
    (line : String × String) (hline : line ∈ data) (w : String)
    (hw : w ∈ splitWords line.2) :
    ∀ d : Dict, (dictLookup (trainWordsFold d data) w).isSome := by
  induction data with
  | nil => simp at hline
  | cons l rest ih =>
      intro d
      unfold trainWordsFold
      rw [List.foldl_cons]
      rw [show (rest.foldl (fun d line => (splitWords line.2).foldl addWordTrain d)
        ((splitWords l.2).foldl addWordTrain d)) =
        trainWordsFold ((splitWords l.2).foldl addWordTrain d) rest from rfl]
      rcases List.mem_cons.mp hline with heq | hmem
      · subst heq
        have h2 : (dictLookup ((splitWords line.2).foldl addWordTrain d) w).isSome :=
          foldl_addEntry_mem_isSome (fun d => d.length) _ w hw d
        rw [trainWordsFold_lookup_of_isSome rest _ w h2]
        exact h2
      · exact ih hmem _

theorem testWordsFold_mem_isSome (data : List (String × String))
    (line : String × String) (hline : line ∈ data) (w : String)
    (hw : w ∈ splitWords line.2) :
    ∀ d : Dict, (dictLookup (testWordsFold d data) w).isSome := by
  induction data with
  | nil => simp at hline
  | cons l rest ih =>
      intro d
      unfold testWordsFold
      rw [List.foldl_cons]
      rw [show (rest.foldl (fun d line => (splitWords line.2).foldl addWordTest d)
        ((splitWords l.2).foldl addWordTest d)) =
        testWordsFold ((splitWords l.2).foldl addWordTest d) rest from rfl]
      rcases List.mem_cons.mp hline with heq | hmem
      · subst heq
        have h2 : (dictLookup ((splitWords line.2).foldl addWordTest d) w).isSome :=
          foldl_addEntry_mem_isSome (fun d => (dictLookup d "<unk>").getD 0) _ w hw d
        rw [testWordsFold_lookup_of_isSome rest _ w h2]
        exact h2
      · exact ih hmem _

theorem trainWordsFold_rangeVals (data : List (String × String)) (d : Dict)
    (h : RangeVals d) : RangeVals (trainWordsFold d data) := by
  induction data generalizing d with
  | nil => exact h
  | cons line rest ih =>
      unfold trainWordsFold
      rw [List.foldl_cons]
      exact ih _ (rangeVals_foldl_addWordTrain _ d h)

theorem trainWordsFold_unkZero (data : List (String × String)) (d : Dict)
    (h : UnkZero d) : UnkZero (trainWordsFold d data) := by
  induction data generalizing d with
  | nil => exact h
  | cons line rest ih =>
      unfold trainWordsFold
      rw [List.foldl_cons]
      exact ih _ (unkZero_foldl_addEntry (fun d => d.length) _ d h)

theorem testWordsFold_unkZero (data : List (String × String)) (d : Dict)
    (h : UnkZero d) : UnkZero (testWordsFold d data) := by
  induction data generalizing d with
  | nil => exact h
  | cons line rest ih =>
      unfold testWordsFold
      rw [List.foldl_cons]
      exact ih _ (unkZero_foldl_addEntry (fun d => (dictLookup d "<unk>").getD 0) _ d h)

theorem testWordsFold_boundedVals (data : List (String × String)) (d : Dict)
    (hb : BoundedVals d) (hunk : UnkZero d) :
    BoundedVals (testWordsFold d data) := by
  induction data generalizing d with
  | nil => exact hb
  | cons line rest ih =>
      unfold testWordsFold
      rw [List.foldl_cons]
      exact ih _ (boundedVals_foldl_addWordTest _ d hb hunk)
        (unkZero_foldl_addEntry (fun d => (dictLookup d "<unk>").getD 0) _ d hunk)

theorem testWordsFold_lookup_cases (data : List (String × String)) (d : Dict)
    (hunk : UnkZero d) (w : String) :
    dictLookup (testWordsFold d data) w = dictLookup d w
    ∨ dictLookup (testWordsFold d data) w = some 0 := by
  induction data generalizing d with
  | nil => left; rfl
  | cons line rest ih =>
      unfold testWordsFold
      rw [List.foldl_cons]
      have hunk2 : UnkZero ((splitWords line.2).foldl addWordTest d) :=
        unkZero_foldl_addEntry (fun d => (dictLookup d "<unk>").getD 0) _ d hunk
      rcases ih _ hunk2 with h1 | h1
      · rw [show (rest.foldl (fun d line => (splitWords line.2).foldl addWordTest d)
          ((splitWords line.2).foldl addWordTest d)) =
          testWordsFold ((splitWords line.2).foldl addWordTest d) rest from rfl, h1]
        exact foldl_addWordTest_lookup_cases _ d hunk w
      · right
        rw [show (rest.foldl (fun d line => (splitWords line.2).foldl addWordTest d)
          ((splitWords line.2).foldl addWordTest d)) =
          testWordsFold ((splitWords line.2).foldl addWordTest d) rest from rfl]
        exact h1

/-! ### tag folds -/

theorem tagsFold_lookup_of_isSome (data : List (String × String)) (t : Dict)
    (w : String) (h : (dictLookup t w).isSome) :
    dictLookup (tagsFold t data) w = dictLookup t w := by
  induction data generalizing t with
  | nil => rfl
  | cons line rest ih =>
      unfold tagsFold
      rw [List.foldl_cons]
      have hstep : dictLookup (addTag t line.1) w = dictLookup t w :=
        addEntry_lookup_of_isSome (fun d => d.length) t line.1 w h
      have h2 : (dictLookup (addTag t line.1) w).isSome := by rw [hstep]; exact h
      rw [show (rest.foldl (fun t line => addTag t line.1) (addTag t line.1)) =
        tagsFold (addTag t line.1) rest from rfl]
      rw [ih _ h2, hstep]

theorem tagsFold_mem_isSome (data : List (String × String))
    (line : String × String) (hline : line ∈ data) :
    ∀ t : Dict, (dictLookup (tagsFold t data) line.1).isSome := by
  induction data with
  | nil => simp at hline
  | cons l rest ih =>
      intro t
      unfold tagsFold
      rw [List.foldl_cons]
      rw [show (rest.foldl (fun t line => addTag t line.1) (addTag t l.1)) =
        tagsFold (addTag t l.1) rest from rfl]
      rcases List.mem_cons.mp hline with heq | hmem
      · subst heq
        have h2 : (dictLookup (addTag t line.1) line.1).isSome :=
          addEntry_lookup_self_isSome (fun d => d.length) t line.1
        rw [tagsFold_lookup_of_isSome rest _ line.1 h2]
        exact h2
      · exact ih hmem _

/-! ### create_tensor totality and bounds -/

theorem dictLookup_mem (d : Dict) (w : String) (v : ℕ)
    (h : dictLookup d w = some v) : (w, v) ∈ d := by
  induction d with
  | nil => simp [dictLookup] at h
  | cons p rest ih =>
      obtain ⟨k, v'⟩ := p
      by_cases hk : k = w
      · subst hk
        simp [dictLookup] at h
        simp [h]
      · simp only [dictLookup, hk, if_false] at h
        exact List.mem_cons_of_mem _ (ih h)

theorem encodeWords_total (wd : Dict) (hb : BoundedVals wd) (ws : List String)
    (h : ∀ w ∈ ws, (dictLookup wd w).isSome) :
    ∃ l, encodeWords wd ws = some l ∧ ∀ i ∈ l, i < wd.length := by
  induction ws with
  | nil => exact ⟨[], rfl, by simp⟩
  | cons w rest ih =>
      obtain ⟨i, hi⟩ := Option.isSome_iff_exists.mp (h w (List.mem_cons_self w rest))
      obtain ⟨l, hl, hbl⟩ := ih (fun w' hw' => h w' (List.mem_cons_of_mem w hw'))
      refine ⟨i :: l, ?_, ?_⟩
      · rw [encodeWords, hi, hl]
      · intro j hj
        rcases List.mem_cons.mp hj with heq | hmem
        · subst heq
          exact hb (w, j) (dictLookup_mem wd w j hi)
        · exact hbl j hmem

theorem create_tensor_total (wd td : Dict) (hb : BoundedVals wd)
    (data : List (String × String))
    (h : ∀ line ∈ data, (∀ w ∈ splitWords line.2, (dictLookup wd w).isSome)
      ∧ (dictLookup td line.1).isSome) :
    ∃ out, create_tensor wd td data = some out
      ∧ ∀ p ∈ out, ∀ i ∈ p.1, i < wd.length := by
  induction data with
  | nil => exact ⟨[], rfl, by simp⟩
  | cons line rest ih =>
      obtain ⟨hws, htag⟩ := h line (List.mem_cons_self line rest)
      obtain ⟨l, hl, hbl⟩ := encodeWords_total wd hb (splitWords line.2) hws
      obtain ⟨t, ht⟩ := Option.isSome_iff_exists.mp htag
      obtain ⟨out, hout, hbout⟩ := ih (fun l' hl' => h l' (List.mem_cons_of_mem line hl'))
      refine ⟨(l, t) :: out, ?_, ?_⟩
      · rw [create_tensor, hl, ht, hout]
      · intro p hp
        rcases List.mem_cons.mp hp with heq | hmem
        · subst heq
          intro i hi
          exact hbl i hi
        · exact hbout p hmem

/-- C8: the vocabulary-index invariant of the dictionary pipeline.  After
`create_dict` on the training data (starting from `{"<unk>": 0}`), `"<unk>"`
maps to 0, and the stored indices are exactly `0 … len-1` in insertion order
(so distinct training words receive distinct in-range indices); after
`create_dict(check_unk=True)` on the test data, `"<unk>"` still maps to 0,
every stored index is still in range, and any word absent from the training
dictionary that the test pass added maps to the `"<unk>"` index 0; hence
`create_tensor` succeeds on the full data and every token index it produces
is strictly below `number_of_words`, so every embedding lookup of the
BoW/CBoW forward passes is in range. -/
theorem claim_C8_vocab_invariant (trainData testData : List (String × String)) :
    dictLookup (pipelineTrainState trainData).1 "<unk>" = some 0
    ∧ dictLookup (pipelineTestState trainData testData).1 "<unk>" = some 0
    ∧ (pipelineTrainState trainData).1.map Prod.snd =
        List.range (pipelineTrainState trainData).1.length
    ∧ (∀ p ∈ (pipelineTestState trainData testData).1,
        p.2 < (pipelineTestState trainData testData).1.length)
    ∧ (∀ w, dictLookup (pipelineTrainState trainData).1 w = none →
        (dictLookup (pipelineTestState trainData testData).1 w).isSome →
        dictLookup (pipelineTestState trainData testData).1 w = some 0)
    ∧ ∃ out, create_tensor (pipelineTestState trainData testData).1
          (pipelineTestState trainData testData).2 (trainData ++ testData) = some out
        ∧ ∀ p ∈ out, ∀ i ∈ p.1,
            i < (pipelineTestState trainData testData).1.length := by
  have h1 : pipelineTrainState trainData =
      (trainWordsFold initWordDict trainData, tagsFold [] trainData) :=
    create_dict_false_eq trainData _
  have h2 : pipelineTestState trainData testData =
      (testWordsFold (trainWordsFold initWordDict trainData) testData,
        tagsFold (tagsFold [] trainData) testData) := by
    unfold pipelineTestState
    rw [h1, create_dict_true_eq]
  rw [h1, h2]
  set wd1 := trainWordsFold initWordDict trainData with hwd1
  set wd2 := testWordsFold wd1 testData with hwd2
  set td1 := tagsFold [] trainData with htd1
  set td2 := tagsFold td1 testData with htd2
  have hunk1 : UnkZero wd1 := trainWordsFold_unkZero _ _ unkZero_initWordDict
  have hunk2 : UnkZero wd2 := testWordsFold_unkZero _ _ hunk1
  have hrange1 : RangeVals wd1 := trainWordsFold_rangeVals _ _ rangeVals_initWordDict
  have hb1 : BoundedVals wd1 := boundedVals_of_rangeVals _ hrange1
  have hb2 : BoundedVals wd2 := testWordsFold_boundedVals _ _ hb1 hunk1
  refine ⟨hunk1, hunk2, hrange1, hb2, ?_, ?_⟩
  · intro w hnone hsome
    rcases testWordsFold_lookup_cases testData wd1 hunk1 w with hc | hc
    · rw [hwd2] at hsome ⊢
      rw [hc] at hsome
      rw [hnone] at hsome
      simp at hsome
    · exact hc
  · refine create_tensor_total wd2 td2 hb2 (trainData ++ testData) ?_
    intro line hline
    rcases List.mem_append.mp hline with hlt | hlt
    · constructor
      · intro w hw
        have hin1 : (dictLookup wd1 w).isSome :=
          trainWordsFold_mem_isSome trainData line hlt w hw initWordDict
        have := testWordsFold_lookup_of_isSome testData wd1 w hin1
        rw [hwd2, this]
        exact hin1
      · have hin1 : (dictLookup td1 line.1).isSome :=
          tagsFold_mem_isSome trainData line hlt []
        have := tagsFold_lookup_of_isSome testData td1 line.1 hin1
        rw [htd2, this]
        exact hin1
    · exact ⟨fun w hw => testWordsFold_mem_isSome testData line hlt w hw wd1,
        tagsFold_mem_isSome testData line hlt td1⟩

/-- Witness for C8 at concrete data: the test-only word `"c"` gets the
`"<unk>"` index 0, and `"<unk>"` maps to 0 after the training pass. -/
theorem claim_C8_vocab_invariant_witness :
    dictLookup (pipelineTestState [("pos", "a b")] [("neg", "a c")]).1 "c" = some 0
    ∧ dictLookup (pipelineTrainState [("pos", "a b")]).1 "<unk>" = some 0 := by
  constructor
  · exact (claim_C8_vocab_invariant [("pos", "a b")] [("neg", "a c")]).2.2.2.2.1 "c"
      (by decide) (by decide)
  · exact (claim_C8_vocab_invariant [("pos", "a b")] [("neg", "a c")]).1

end MLNotebooks
